import Mathlib

/-!
Formal model of the SecurePass dashboard core: record filtering/search,
pagination, tag parsing, form validation, store-error handling, the
cross-kind aggregator, and secret masking.  Each definition is a shallow
embedding of the corresponding TypeScript code in
`src/components/dashboard/**` and `src/app/dashboard/page.tsx`.

The file is organised as definitions first, then theorems.
-/

namespace SecurePass

/-! ## JavaScript string primitives

The dashboard code uses `String.prototype.toLowerCase`, `includes`,
`split(',')` and `trim`.  We model strings by their character sequences
and give structurally recursive models of these operations.
-/

/-- Model of JavaScript `s.toLowerCase()` (ASCII case folding on the
character sequence). -/
def jsToLower (s : String) : String := String.mk (s.data.map Char.toLower)

/-- Does the character list `q` occur as a contiguous sublist of the second
argument?  This is the character-level content of JavaScript
`String.prototype.includes`. -/
def hasSub (q : List Char) : List Char → Bool
  | [] => q.isEmpty
  | c :: rest => q.isPrefixOf (c :: rest) || hasSub q rest

/-- Model of JavaScript `s.includes(q)`. -/
def jsIncludes (s q : String) : Bool := hasSub q.data s.data

/-- Split a character list at every occurrence of `sep`; returns the first
segment and the remaining segments. -/
def splitCh (sep : Char) : List Char → List Char × List (List Char)
  | [] => ([], [])
  | c :: cs =>
    let r := splitCh sep cs
    if c = sep then ([], r.1 :: r.2) else (c :: r.1, r.2)

/-- Model of JavaScript `s.split(sep)` for a one-character separator (the
dashboard only ever splits on `','`).  On the empty string it returns
`[""]`, as in JavaScript. -/
def jsSplit (sep : Char) (s : String) : List String :=
  let r := splitCh sep s.data
  (r.1 :: r.2).map String.mk

/-- Remove leading and trailing whitespace from a character list. -/
def trimChars (cs : List Char) : List Char :=
  ((cs.dropWhile Char.isWhitespace).reverse.dropWhile Char.isWhitespace).reverse

/-- Model of JavaScript `s.trim()`. -/
def jsTrim (s : String) : String := String.mk (trimChars s.data)

/-- Case-insensitive substring relation: the lower-cased needle occurs
inside the lower-cased haystack.  This is the (propositional) reading of
"the field contains the query as a substring, ignoring case" used by the
specification of the search predicate. -/
def SubstrCI (q s : String) : Prop :=
  ∃ l r, (jsToLower s).data = l ++ (jsToLower q).data ++ r

/-- Case-sensitive substring relation: the needle occurs inside the
haystack verbatim. -/
def SubstrCS (q s : String) : Prop :=
  ∃ l r, s.data = l ++ q.data ++ r

/-! ## Data model (`src/lib/types.ts`) -/

/-- Record status, present on credential-like kinds. -/
inductive Status where
  | Active
  | Inactive
deriving DecidableEq, Repr

/-- A user-defined label/value pair attached to a record. -/
structure CustomField where
  label : String
  value : String
deriving DecidableEq, Repr

/-- `Password` record (`interface Password`); `tags` and `customFields`
are optional in the TypeScript interface. -/
structure Password where
  id : String
  appName : String
  username : String
  password : String
  status : Status
  tags : Option (List String)
  customFields : Option (List CustomField)
deriving DecidableEq, Repr

/-- `ApiKey` record (`interface ApiKey`). -/
structure ApiKey where
  id : String
  modelName : String
  apiKey : String
  status : Status
  tags : Option (List String)
  customFields : Option (List CustomField)
deriving DecidableEq, Repr

/-- `Note` record (`interface Note`). -/
structure Note where
  id : String
  title : String
  content : String
  tags : Option (List String)
  customFields : Option (List CustomField)
deriving DecidableEq, Repr

/-! ## Search and filtering (`PasswordManager.tsx` `filteredPasswords`,
`ApiKeyManager.tsx` `filteredKeys`, `NotesManager.tsx` `filteredNotes`) -/

/-- Search clause over an optional tag list:
`p.tags && p.tags.some(tag => tag.toLowerCase().includes(q.toLowerCase()))`. -/
def tagsSearchMatch (q : String) : Option (List String) → Bool
  | none => false
  | some ts => ts.any fun t => jsIncludes (jsToLower t) (jsToLower q)

/-- Search predicate of `PasswordManager.filteredPasswords`. -/
def passwordSearchMatch (q : String) (p : Password) : Bool :=
  jsIncludes (jsToLower p.appName) (jsToLower q) ||
  jsIncludes (jsToLower p.username) (jsToLower q) ||
  tagsSearchMatch q p.tags

/-- Platform filter clause of `PasswordManager.filteredPasswords`:
`platformFilter === 'all' || p.appName === platformFilter`. -/
def platformMatch (c : String) (p : Password) : Bool :=
  c == "all" || p.appName == c

/-- The derived `filteredPasswords` list. -/
def filteredPasswords (ps : List Password) (q c : String) : List Password :=
  ps.filter fun p => passwordSearchMatch q p && platformMatch c p

/-- Search predicate of `ApiKeyManager.filteredKeys`. -/
def apiKeySearchMatch (q : String) (k : ApiKey) : Bool :=
  jsIncludes (jsToLower k.modelName) (jsToLower q) ||
  tagsSearchMatch q k.tags

/-- Search predicate of `NotesManager.filteredNotes`. -/
def noteSearchMatch (q : String) (n : Note) : Bool :=
  jsIncludes (jsToLower n.title) (jsToLower q) ||
  jsIncludes (jsToLower n.content) (jsToLower q) ||
  tagsSearchMatch q n.tags

/-- The derived `filteredNotes` list. -/
def filteredNotes (ns : List Note) (q : String) : List Note :=
  ns.filter fun n => noteSearchMatch q n

/-- Designated search fields of a password record, together with its tags. -/
def passwordSearchFields (p : Password) : List String :=
  p.appName :: p.username :: p.tags.getD []

/-- Designated search fields of an API-key record, together with its tags. -/
def apiKeySearchFields (k : ApiKey) : List String :=
  k.modelName :: k.tags.getD []

/-- Designated search fields of a note record, together with its tags. -/
def noteSearchFields (n : Note) : List String :=
  n.title :: n.content :: n.tags.getD []

/-! ## Pagination (`PasswordManager.tsx`) -/

/-- Page sizes offered by the entries-per-page selector. -/
def allowedPageSizes : List Nat := [10, 50, 100, 200, 500]

/-- `totalPages = Math.ceil(filteredPasswords.length / entriesPerPage)`,
as exact natural arithmetic (the page size is always positive). -/
def totalPages (filteredCount pageSize : Nat) : Nat :=
  (filteredCount + pageSize - 1) / pageSize

/-- The footer page indicator
`Page {totalPages > 0 ? currentPage : 0} of {totalPages}`, as the pair of
displayed numbers. -/
def pageIndicator (currentPage total : Nat) : Nat × Nat :=
  (if 0 < total then currentPage else 0, total)

/-- The filter/pagination state of `PasswordManager`. -/
structure PageState where
  passwords : List Password
  searchQuery : String
  platformFilter : String
  currentPage : Nat
  entriesPerPage : Nat
deriving Repr

/-- Changing the search query; the `filteredPasswords` memo recomputes and
executes `setCurrentPage(1)`. -/
def setSearchQuery (st : PageState) (q : String) : PageState :=
  { st with searchQuery := q, currentPage := 1 }

/-- Changing the platform filter; the memo recomputes and resets the page. -/
def setPlatformFilter (st : PageState) (c : String) : PageState :=
  { st with platformFilter := c, currentPage := 1 }

/-- `handleEntriesPerPageChange`: sets the page size and resets the page. -/
def handleEntriesPerPageChange (st : PageState) (n : Nat) : PageState :=
  { st with entriesPerPage := n, currentPage := 1 }

/-- A successful fetch replaces the loaded list; the memo recomputes and
resets the page. -/
def applyFetchedPasswords (st : PageState) (l : List Password) : PageState :=
  { st with passwords := l, currentPage := 1 }

/-- The page count of a state. -/
def stateTotalPages (st : PageState) : Nat :=
  totalPages (filteredPasswords st.passwords st.searchQuery st.platformFilter).length
    st.entriesPerPage

/-- A concrete manager state with no loaded passwords (used to exercise
the pagination model on an empty filtered list). -/
def emptyPageState : PageState :=
  { passwords := [], searchQuery := "", platformFilter := "all",
    currentPage := 1, entriesPerPage := 50 }

/-- A concrete loaded password record. -/
def samplePassword : Password :=
  { id := "1", appName := "GitHub", username := "u", password := "x",
    status := Status.Active, tags := none, customFields := none }

/-- A concrete manager state with one loaded password. -/
def samplePageState : PageState :=
  { passwords := [samplePassword], searchQuery := "", platformFilter := "all",
    currentPage := 3, entriesPerPage := 50 }

/-- The `Previous` button handler: `setCurrentPage(prev => Math.max(prev - 1, 1))`. -/
def prevClick (p : Nat) : Nat := max (p - 1) 1

/-- The `Next` button handler: `setCurrentPage(prev => Math.min(prev + 1, totalPages))`. -/
def nextClick (p total : Nat) : Nat := min (p + 1) total

/-- The `Previous` button is disabled when `currentPage === 1`. -/
def prevDisabled (p : Nat) : Bool := p == 1

/-- The `Next` button is disabled when `currentPage === totalPages`. -/
def nextDisabled (p total : Nat) : Bool := p == total

/-- The observable `previous` action: a disabled button does not fire. -/
def prevAction (p : Nat) : Nat :=
  if prevDisabled p then p else prevClick p

/-- The observable `next` action: a disabled button does not fire. -/
def nextAction (p total : Nat) : Nat :=
  if nextDisabled p total then p else nextClick p total

/-! ## Tag parsing (`handleFormSubmit` in all three managers):
`values.tags ? values.tags.split(',').map(tag => tag.trim()).filter(Boolean) : []` -/

/-- The stored tag list derived from the free-text tags input (`undefined`
and `""` are both falsy in JavaScript, hence yield `[]`). -/
def parseTags : Option String → List String
  | none => []
  | some s =>
    if s == "" then []
    else ((jsSplit ',' s).map jsTrim).filter fun t => !(t == "")

/-! ## Form validation (the zod schemas `passwordSchema`, `apiKeySchema`,
`noteSchema` and the `zodResolver` gate of `react-hook-form`) -/

/-- One component of a zod error path (e.g. `customFields.0.label`). -/
inductive PathPart where
  | field (name : String)
  | index (i : Nat)
deriving DecidableEq, Repr

/-- Field-keyed error messages, as (path, message) pairs. -/
abbrev FieldErrors := List (List PathPart × String)

/-- `z.string().min(1, msg)`: fails exactly on the empty string. -/
def minLen1 (path : List PathPart) (s msg : String) : FieldErrors :=
  if s = "" then [(path, msg)] else []

/-- `z.enum(['Active', 'Inactive'])` applied to the raw status string. -/
def statusCheck (path : List PathPart) (s : String) : FieldErrors :=
  if s = "Active" ∨ s = "Inactive" then [] else [(path, "Invalid enum value")]

/-- Errors of the `customFields` array element schema, with zod-style
indexed paths. -/
def customFieldsErrorsFrom (base : List PathPart) (i : Nat) :
    List CustomField → FieldErrors
  | [] => []
  | cf :: rest =>
    minLen1 (base ++ [.index i, .field "label"]) cf.label "Label is required" ++
    minLen1 (base ++ [.index i, .field "value"]) cf.value "Value is required" ++
    customFieldsErrorsFrom base (i + 1) rest

/-- `z.array(z.object({label: …min(1), value: …min(1)})).optional()`. -/
def customFieldsErrors (base : List PathPart) :
    Option (List CustomField) → FieldErrors
  | none => []
  | some cfs => customFieldsErrorsFrom base 0 cfs

/-- Raw values of the password add/edit form. -/
structure PasswordFormValues where
  appName : String
  username : String
  password : String
  status : String
  tags : Option String
  customFields : Option (List CustomField)
deriving DecidableEq, Repr

/-- Raw values of the API-key add/edit form. -/
structure ApiKeyFormValues where
  modelName : String
  apiKey : String
  status : String
  tags : Option String
  customFields : Option (List CustomField)
deriving DecidableEq, Repr

/-- Raw values of the note add/edit form. -/
structure NoteFormValues where
  title : String
  content : String
  tags : Option String
  customFields : Option (List CustomField)
deriving DecidableEq, Repr

/-- `passwordSchema` validation. -/
def validatePassword (v : PasswordFormValues) : FieldErrors :=
  minLen1 [.field "appName"] v.appName "App/Platform name is required" ++
  minLen1 [.field "username"] v.username "Username/Email is required" ++
  minLen1 [.field "password"] v.password "Password is required" ++
  statusCheck [.field "status"] v.status ++
  customFieldsErrors [.field "customFields"] v.customFields

/-- `apiKeySchema` validation. -/
def validateApiKey (v : ApiKeyFormValues) : FieldErrors :=
  minLen1 [.field "modelName"] v.modelName "Model name is required" ++
  minLen1 [.field "apiKey"] v.apiKey "API Key is required" ++
  statusCheck [.field "status"] v.status ++
  customFieldsErrors [.field "customFields"] v.customFields

/-- `noteSchema` validation (notes have no status). -/
def validateNote (v : NoteFormValues) : FieldErrors :=
  minLen1 [.field "title"] v.title "Title is required" ++
  minLen1 [.field "content"] v.content "Content is required" ++
  customFieldsErrors [.field "customFields"] v.customFields

/-- Parse the raw status string of a validated form. -/
def statusOfString : String → Option Status
  | "Active" => some Status.Active
  | "Inactive" => some Status.Inactive
  | _ => none

/-- The `dataToSave` payload sent to the store for a password. -/
structure PasswordPayload where
  appName : String
  username : String
  password : String
  status : Status
  tags : List String
  customFields : List CustomField
deriving DecidableEq, Repr

/-- The submission pipeline for the password form: `form.handleSubmit`
invokes `handleFormSubmit` (which issues the store call) only when the
`zodResolver` reports no errors; otherwise no store call occurs. -/
def submitPassword (v : PasswordFormValues) : Option PasswordPayload :=
  if validatePassword v = [] then
    match statusOfString v.status with
    | some st =>
        some { appName := v.appName, username := v.username,
               password := v.password, status := st,
               tags := parseTags v.tags,
               customFields := v.customFields.getD [] }
    | none => none
  else none

/-- A concrete password form payload with a missing required field. -/
def invalidPasswordForm : PasswordFormValues :=
  { appName := "", username := "u", password := "x", status := "Active",
    tags := none, customFields := none }

/-- A concrete fully valid API-key form payload. -/
def validApiKeyForm : ApiKeyFormValues :=
  { modelName := "Gemini", apiKey := "sk-123", status := "Active",
    tags := some "ai,prod", customFields := none }

/-- The `dataToSave` payload sent to the store for an API key. -/
structure ApiKeyPayload where
  modelName : String
  apiKey : String
  status : Status
  tags : List String
  customFields : List CustomField
deriving DecidableEq, Repr

/-- The `dataToSave` payload sent to the store for a note. -/
structure NotePayload where
  title : String
  content : String
  tags : List String
  customFields : List CustomField
deriving DecidableEq, Repr

/-- The submission pipeline for the API-key form. -/
def submitApiKey (v : ApiKeyFormValues) : Option ApiKeyPayload :=
  if validateApiKey v = [] then
    match statusOfString v.status with
    | some st =>
        some { modelName := v.modelName, apiKey := v.apiKey, status := st,
               tags := parseTags v.tags,
               customFields := v.customFields.getD [] }
    | none => none
  else none

/-- The submission pipeline for the note form. -/
def submitNote (v : NoteFormValues) : Option NotePayload :=
  if validateNote v = [] then
    some { title := v.title, content := v.content,
           tags := parseTags v.tags,
           customFields := v.customFields.getD [] }
  else none

/-! ## Store-error handling (`fetchPasswords`, `handleFormSubmit`,
`handleDelete` in `PasswordManager.tsx`; every store call is wrapped in
`try`/`catch`, the `catch` only shows a destructive toast) -/

/-- One completed interaction with the store, together with its outcome.
`save` covers both `addDoc` (create) and `updateDoc` (update); a
successful `save`/`del` is followed by a re-issued `fetchPasswords`,
whose own outcome is the second component. -/
inductive StoreEvent where
  | fetch (r : Except Unit (List Password))
  | save (r : Except Unit Unit) (after : Except Unit (List Password))
  | del (r : Except Unit Unit) (after : Except Unit (List Password))
deriving Repr

/-- The displayed list and whether a destructive (error) toast was shown,
after one store interaction. -/
def storeStep (st : List Password) : StoreEvent → List Password × Bool
  | .fetch (.ok l) => (l, false)
  | .fetch (.error _) => (st, true)
  | .save (.ok _) (.ok l) => (l, false)
  | .save (.ok _) (.error _) => (st, true)
  | .save (.error _) _ => (st, true)
  | .del (.ok _) (.ok l) => (l, false)
  | .del (.ok _) (.error _) => (st, true)
  | .del (.error _) _ => (st, true)

/-- Run a sequence of store interactions from an initial displayed list. -/
def runStore (st : List Password) : List StoreEvent → List Password
  | [] => st
  | e :: es => runStore (storeStep st e).1 es

/-- The payload of the successful `list` call inside an event, if any. -/
def fetchPayload : StoreEvent → Option (List Password)
  | .fetch (.ok l) => some l
  | .save (.ok _) (.ok l) => some l
  | .del (.ok _) (.ok l) => some l
  | _ => none

/-- The last successfully fetched list in a trace (or the initial list). -/
def lastFetched (st : List Password) (evs : List StoreEvent) : List Password :=
  ((evs.filterMap fetchPayload).getLast?).getD st

/-! ## Aggregator (`src/app/dashboard/page.tsx`) -/

/-- Increment the count of key `t` in the internal key list of a
JavaScript object: `m[t] = (m[t] || 0) + 1` (an existing key is updated
in place, a new key is appended in insertion order).  The enumeration
order that `Object.entries` later exposes — array-index keys first, in
ascending numeric order — is modelled separately by `jsObjectEntries`. -/
def bump (m : List (String × Nat)) (t : String) : List (String × Nat) :=
  match m with
  | [] => [(t, 1)]
  | (k, v) :: rest => if k = t then (k, v + 1) :: rest else (k, v) :: bump rest t

/-- Read a key's count from the association list (0 when absent). -/
def getCount (m : List (String × Nat)) (t : String) : Nat :=
  match m with
  | [] => 0
  | (k, v) :: rest => if k = t then v else getCount rest t

/-- The stream of tag occurrences scanned by the frequency computation:
`[...apiKeys, ...passwords, ...notes].forEach(item => item.tags?.forEach(…))`. -/
def tagStream (ks : List ApiKey) (ps : List Password) (ns : List Note) :
    List String :=
  (ks.map fun k => k.tags.getD []).flatten ++
  (ps.map fun p => p.tags.getD []).flatten ++
  (ns.map fun n => n.tags.getD []).flatten

/-- The stream of platform occurrences (password records only). -/
def platformStream (ps : List Password) : List String :=
  ps.map fun p => p.appName

/-- The frequency mapping built by the `forEach` loops (`allTags` /
`allPlatforms` as insertion-ordered objects). -/
def freqEntries (stream : List String) : List (String × Nat) :=
  stream.foldl bump []

/-- `allTags` of the dashboard page, as `Object.entries` order. -/
def allTags (ks : List ApiKey) (ps : List Password) (ns : List Note) :
    List (String × Nat) :=
  freqEntries (tagStream ks ps ns)

/-- `allPlatforms` of the dashboard page. -/
def allPlatforms (ps : List Password) : List (String × Nat) :=
  freqEntries (platformStream ps)

/-- Insert into a list sorted by `le` (used to model the stable JS sort). -/
def insertLe {α : Type} (le : α → α → Bool) (a : α) : List α → List α
  | [] => [a]
  | b :: bs => if le a b then a :: b :: bs else b :: insertLe le a bs

/-- Insertion sort by `le`. -/
def sortLe {α : Type} (le : α → α → Bool) : List α → List α
  | [] => []
  | a :: as => insertLe le a (sortLe le as)

/-- Numeric value of a decimal digit character. -/
def digitVal (c : Char) : Nat := c.toNat - 48

/-- Value of a decimal digit string (the number a canonical numeric
property key denotes). -/
def strToNat (s : String) : Nat :=
  s.data.foldl (fun n c => n * 10 + digitVal c) 0

/-- Is the string a canonical array-index property key: `"0"`, or a digit
string without a leading zero whose value is below `2^32 - 1`?
JavaScript enumerates such own-property keys before all other string
keys, in ascending numeric order. -/
def isArrayIndex (s : String) : Bool :=
  s == "0" ||
  (!s.data.isEmpty && s.data.all Char.isDigit &&
    !(s.data.head? == some '0') && strToNat s < 4294967295)

/-- Model of the `Object.entries` enumeration order over the object's
internal key list: array-index keys first, in ascending numeric order,
followed by the remaining string keys in insertion order. -/
def jsObjectEntries (m : List (String × Nat)) : List (String × Nat) :=
  sortLe (fun a b => decide (strToNat a.1 ≤ strToNat b.1))
    (m.filter fun kv => isArrayIndex kv.1) ++
  (m.filter fun kv => !isArrayIndex kv.1)

/-- The enumeration order of two object keys, described relative to the
insertion stream: array-index keys come first in ascending numeric order,
followed by the remaining keys in order of first encounter. -/
def EnumBefore (stream : List String) (a b : String) : Prop :=
  (isArrayIndex a = true ∧ isArrayIndex b = true ∧ strToNat a < strToNat b) ∨
  (isArrayIndex a = true ∧ isArrayIndex b = false) ∨
  (isArrayIndex a = false ∧ isArrayIndex b = false ∧
    stream.indexOf a < stream.indexOf b)

/-- The comparison realised by the stable JavaScript
`.sort((a, b) => b.value - a.value)` on the indexed entry list: larger
counts first, ties kept in the order the entries were enumerated. -/
def chartLe (a b : Nat × (String × Nat)) : Bool :=
  decide (b.2.2 < a.2.2 ∨ (a.2.2 = b.2.2 ∧ a.1 ≤ b.1))

/-- The stable sort and `slice`:
`.map(([name, value]) => ({name, value})).sort((a,b) => b.value - a.value).slice(0, 5)`
applied to an already-enumerated entries list. -/
def sortSlice (entries : List (String × Nat)) : List (String × Nat) :=
  ((sortLe chartLe entries.enum).map Prod.snd).take 5

/-- `Object.entries(counts).map(…).sort((a,b) => b.value - a.value).slice(0, 5)`. -/
def chartTop5 (m : List (String × Nat)) : List (String × Nat) :=
  sortSlice (jsObjectEntries m)

/-- `tagChartData` of the dashboard page. -/
def tagChartData (ks : List ApiKey) (ps : List Password) (ns : List Note) :
    List (String × Nat) :=
  chartTop5 (allTags ks ps ns)

/-- `platformChartData` of the dashboard page. -/
def platformChartData (ps : List Password) : List (String × Nat) :=
  chartTop5 (allPlatforms ps)

/-- A concrete API key used to exercise the aggregator. -/
def aggApiKey : ApiKey :=
  { id := "k1", modelName := "Gemini", apiKey := "sk", status := Status.Active,
    tags := some ["ai", "prod"], customFields := none }

/-- A concrete password used to exercise the aggregator. -/
def aggPassword : Password :=
  { id := "p1", appName := "GitHub", username := "u", password := "x",
    status := Status.Active, tags := some ["prod"], customFields := none }

/-- An API key whose tags mix an ordinary name with an integer-like one
(tags are free-form strings, so this is a legal record). -/
def numericTagApiKey : ApiKey :=
  { id := "k2", modelName := "M", apiKey := "sk", status := Status.Active,
    tags := some ["alpha", "1"], customFields := none }

/-! ## Secret masking (`PasswordManager.tsx` password cell,
`ApiKeyManager.tsx` API-key cell) -/

theorem isPrefixOf_eq_true_iff (q s : List Char) :
    q.isPrefixOf s = true ↔ ∃ t, s = q ++ t := by
  induction q generalizing s with
  | nil => simp [List.isPrefixOf]
  | cons a as ih =>
    cases s with
    | nil => simp [List.isPrefixOf]
    | cons b bs =>
      simp only [List.isPrefixOf, Bool.and_eq_true, beq_iff_eq, ih,
        List.cons_append, List.cons.injEq]
      constructor
      · rintro ⟨rfl, t, rfl⟩; exact ⟨t, rfl, rfl⟩
      · rintro ⟨t, rfl, rfl⟩; exact ⟨rfl, t, rfl⟩

/-- Correctness of the substring search: `hasSub q s` holds exactly when
`s` decomposes as `l ++ q ++ r`. -/
theorem hasSub_eq_true_iff (q s : List Char) :
    hasSub q s = true ↔ ∃ l r, s = l ++ q ++ r := by
  induction s with
  | nil =>
    simp only [hasSub, List.isEmpty_iff]
    constructor
    · rintro rfl; exact ⟨[], [], rfl⟩
    · rintro ⟨l, r, h⟩
      rcases List.append_eq_nil.mp h.symm with ⟨h1, h2⟩
      exact (List.append_eq_nil.mp h1).2
  | cons c rest ih =>
    simp only [hasSub, Bool.or_eq_true, isPrefixOf_eq_true_iff, ih]
    constructor
    · rintro (⟨t, ht⟩ | ⟨l, r, hr⟩)
      · exact ⟨[], t, by simp [ht]⟩
      · exact ⟨c :: l, r, by simp [hr]⟩
    · rintro ⟨l, r, h⟩
      cases l with
      | nil => exact Or.inl ⟨r, by simpa using h⟩
      | cons x xs =>
        right
        simp only [List.cons_append, List.cons.injEq] at h
        exact ⟨xs, r, h.2⟩

theorem substrCI_iff_jsIncludes (q s : String) :
    SubstrCI q s ↔ jsIncludes (jsToLower s) (jsToLower q) = true := by
  unfold SubstrCI jsIncludes
  rw [hasSub_eq_true_iff]

theorem substrCS_iff_jsIncludes (q s : String) :
    SubstrCS q s ↔ jsIncludes s q = true := by
  unfold SubstrCS jsIncludes
  rw [hasSub_eq_true_iff]

theorem tagsSearchMatch_eq_true_iff (q : String) (ts : Option (List String)) :
    tagsSearchMatch q ts = true ↔ ∃ t ∈ ts.getD [], SubstrCI q t := by
  cases ts with
  | none => simp [tagsSearchMatch]
  | some l =>
    simp only [tagsSearchMatch, List.any_eq_true, Option.getD_some]
    constructor
    · rintro ⟨t, ht, h⟩
      exact ⟨t, ht, (substrCI_iff_jsIncludes q t).mpr h⟩
    · rintro ⟨t, ht, h⟩
      exact ⟨t, ht, (substrCI_iff_jsIncludes q t).mp h⟩

/-! ## Claim theorems -/

/-- C1: for every loaded password list, query `q` and category filter `c`,
a record is in the displayed (filtered) list iff it is a loaded record
that matches the search predicate for `q` and whose `appName` equals `c`,
or merely search-matches when `c` is the distinguished value `"all"`. -/
theorem C1_filteredPasswords_mem_iff (ps : List Password) (q c : String)
    (p : Password) :
    p ∈ filteredPasswords ps q c ↔
      p ∈ ps ∧ passwordSearchMatch q p = true ∧
        (c = "all" ∨ p.appName = c) := by
  simp only [filteredPasswords, List.mem_filter, Bool.and_eq_true,
    platformMatch, Bool.or_eq_true, beq_iff_eq, and_assoc]

/-- C2 (counterexample): the claim that search matching is *case-sensitive*
substring containment fails on the code: the password record with
`appName = "GitHub"` matches the query `"github"`, yet no designated field
or tag of that record contains `"github"` as a case-sensitive substring. -/
theorem C2_counterexample_case_sensitivity :
    passwordSearchMatch "github"
        { id := "1", appName := "GitHub", username := "u", password := "x",
          status := Status.Active, tags := none, customFields := none } = true ∧
      ¬ (∃ s ∈ passwordSearchFields
            { id := "1", appName := "GitHub", username := "u", password := "x",
              status := Status.Active, tags := none, customFields := none },
          SubstrCS "github" s) := by
  constructor
  · decide
  · rintro ⟨s, hs, hsub⟩
    rw [substrCS_iff_jsIncludes] at hsub
    simp only [passwordSearchFields, Option.getD_none, List.mem_cons,
      List.not_mem_nil, or_false] at hs
    rcases hs with rfl | rfl <;> revert hsub <;> decide

/-- C2 (amended): for every record and query string, the record matches the
query iff some designated kind-specific text field (appName/username for
passwords, modelName for API keys, title/content for notes) or some tag of
the record contains the query as a **case-insensitive** substring. -/
theorem C2_searchMatch_iff_substrCI (q : String) :
    (∀ p : Password, passwordSearchMatch q p = true ↔
        ∃ s ∈ passwordSearchFields p, SubstrCI q s) ∧
    (∀ k : ApiKey, apiKeySearchMatch q k = true ↔
        ∃ s ∈ apiKeySearchFields k, SubstrCI q s) ∧
    (∀ n : Note, noteSearchMatch q n = true ↔
        ∃ s ∈ noteSearchFields n, SubstrCI q s) := by
  refine ⟨fun p => ?_, fun k => ?_, fun n => ?_⟩ <;>
    simp only [passwordSearchMatch, apiKeySearchMatch, noteSearchMatch,
      passwordSearchFields, apiKeySearchFields, noteSearchFields,
      Bool.or_eq_true, tagsSearchMatch_eq_true_iff,
      ← substrCI_iff_jsIncludes, List.mem_cons, exists_eq_or_imp] <;>
    tauto

/-- C3 (counterexample): with an empty filtered list (`filteredCount = 0`)
and the default page size 50, the computed page count is 0, refuting the
claim's "the page count … is at least 1". -/
theorem C3_counterexample_zero_pages :
    totalPages (filteredPasswords [] "" "all").length 50 = 0 ∧
      ¬ 1 ≤ totalPages (filteredPasswords [] "" "all").length 50 := by
  decide

/-- C3 (amended): for every filtered count and allowed page size, the page
count equals `ceil(filteredCount / pageSize)` (characterised as the least
`k` with `filteredCount ≤ k * pageSize`); it is at least 1 when the
filtered count is positive, and it is 0 when the filtered count is 0, in
which case the page indicator displays "0 of 0". -/
theorem C3_totalPages_eq_ceil (n s : Nat) (hs : s ∈ allowedPageSizes) :
    (n ≤ totalPages n s * s ∧ ∀ k, n ≤ k * s → totalPages n s ≤ k) ∧
    (0 < n → 1 ≤ totalPages n s) ∧
    (n = 0 → totalPages n s = 0 ∧
      ∀ p, pageIndicator p (totalPages n s) = (0, 0)) := by
  simp only [allowedPageSizes, List.mem_cons, List.not_mem_nil, or_false] at hs
  rcases hs with rfl | rfl | rfl | rfl | rfl <;>
    refine ⟨⟨?_, fun k hk => ?_⟩, fun hn => ?_, fun hn => ⟨?_, fun p => ?_⟩⟩ <;>
    simp only [totalPages, pageIndicator] <;>
    first
      | omega
      | (subst hn; norm_num)

theorem C3_totalPages_eq_ceil_witness :
    120 ≤ totalPages 120 50 * 50 ∧ totalPages 120 50 ≤ 3 ∧
      1 ≤ totalPages 120 50 ∧ totalPages 0 50 = 0 ∧
      pageIndicator 1 (totalPages 0 50) = (0, 0) :=
  ⟨(C3_totalPages_eq_ceil 120 50 (by decide)).1.1,
   (C3_totalPages_eq_ceil 120 50 (by decide)).1.2 3 (by decide),
   (C3_totalPages_eq_ceil 120 50 (by decide)).2.1 (by decide),
   ((C3_totalPages_eq_ceil 0 50 (by decide)).2.2 rfl).1,
   ((C3_totalPages_eq_ceil 0 50 (by decide)).2.2 rfl).2 1⟩

/-- C4 (counterexample): after changing the search query over an empty
list the current page is reset to 1 while the page count is 0, so the
current page does *not* lie in the interval `[1, pageCount]` (which is
empty). -/
theorem C4_counterexample_page_outside_interval :
    (setSearchQuery emptyPageState "q").currentPage = 1 ∧
    stateTotalPages (setSearchQuery emptyPageState "q") = 0 ∧
    ¬ ((setSearchQuery emptyPageState "q").currentPage ≤
        stateTotalPages (setSearchQuery emptyPageState "q")) := by
  decide

/-- C4 (amended): changing the search query, the category filter, or the
page size — and loading a fetched list — unconditionally sets the current
page to 1; consequently the current page lies in `[1, pageCount]` whenever
the resulting filtered list is nonempty (when it is empty the page count
is 0 and the reset page 1 lies outside the empty interval). -/
theorem C4_changes_reset_page (st : PageState) (q c : String) (n : Nat)
    (l : List Password) (hs : st.entriesPerPage ∈ allowedPageSizes) :
    (setSearchQuery st q).currentPage = 1 ∧
    (setPlatformFilter st c).currentPage = 1 ∧
    (handleEntriesPerPageChange st n).currentPage = 1 ∧
    (applyFetchedPasswords st l).currentPage = 1 ∧
    (0 < (filteredPasswords st.passwords q st.platformFilter).length →
      1 ≤ stateTotalPages (setSearchQuery st q) ∧
      (setSearchQuery st q).currentPage ≤ stateTotalPages (setSearchQuery st q)) := by
  refine ⟨rfl, rfl, rfl, rfl, fun h => ?_⟩
  have hsame : stateTotalPages (setSearchQuery st q) =
      totalPages (filteredPasswords st.passwords q st.platformFilter).length
        st.entriesPerPage := rfl
  simp only [allowedPageSizes, List.mem_cons, List.not_mem_nil, or_false] at hs
  constructor <;>
    · show (1 : Nat) ≤ _
      rw [hsame]
      rcases hs with h5 | h5 | h5 | h5 | h5 <;> rw [h5] <;>
        simp only [totalPages] <;> omega

theorem C4_changes_reset_page_witness :
    (setSearchQuery samplePageState "").currentPage = 1 ∧
    1 ≤ stateTotalPages (setSearchQuery samplePageState "") :=
  ⟨(C4_changes_reset_page samplePageState "" "c" 10 [] (by decide)).1,
   ((C4_changes_reset_page samplePageState "" "c" 10 [] (by decide)).2.2.2.2
     (by decide)).1⟩

/-- C5: the `previous` action leaves the current page unchanged when the
page is 1 (both because the button is disabled and because the handler
clamps at 1), and the `next` action leaves it unchanged when the page
equals the page count (including the empty-list case `page = pageCount = 0`,
where the handler clamps at `totalPages`). -/
theorem C5_navigation_boundary (p total : Nat) :
    (p = 1 → prevAction p = p ∧ prevClick p = p) ∧
    (p = total → nextAction p total = p ∧ nextClick p total = p) := by
  constructor
  · rintro rfl; decide
  · rintro rfl
    refine ⟨?_, ?_⟩
    · simp [nextAction, nextDisabled]
    · simp only [nextClick]; omega

theorem C5_navigation_boundary_witness :
    (prevAction 1 = 1 ∧ prevClick 1 = 1) ∧
      (nextAction 0 0 = 0 ∧ nextClick 0 0 = 0) ∧
      (nextAction 3 3 = 3 ∧ nextClick 3 3 = 3) :=
  ⟨(C5_navigation_boundary 1 5).1 rfl,
   (C5_navigation_boundary 0 0).2 rfl,
   (C5_navigation_boundary 3 3).2 rfl⟩

/-- C6: the stored tag list is obtained by splitting the free-text input
on commas, trimming each segment, and dropping empty segments; absent
(`undefined`) and empty inputs both yield the empty tag list, and every
stored tag is non-empty. -/
theorem C6_parseTags_spec (input : Option String) :
    parseTags input =
      ((jsSplit ',' (input.getD "")).map jsTrim).filter (fun t => !(t == "")) ∧
    parseTags none = [] ∧ parseTags (some "") = [] ∧
    ∀ t ∈ parseTags input, t ≠ "" := by
  have hmain : parseTags input =
      ((jsSplit ',' (input.getD "")).map jsTrim).filter (fun t => !(t == "")) := by
    cases input with
    | none => decide
    | some s =>
      by_cases h : s = ""
      · subst h; decide
      · simp only [parseTags, Option.getD_some, beq_iff_eq, if_neg h]
  refine ⟨hmain, rfl, by decide, fun t ht => ?_⟩
  rw [hmain] at ht
  have := (List.mem_filter.mp ht).2
  simpa using this

theorem C6_parseTags_spec_witness :
    parseTags (some " work, personal ,, finance") =
      ((jsSplit ',' " work, personal ,, finance").map jsTrim).filter
        (fun t => !(t == "")) ∧
    "work" ≠ "" :=
  ⟨(C6_parseTags_spec (some " work, personal ,, finance")).1,
   (C6_parseTags_spec (some " work, personal ,, finance")).2.2.2 "work" (by decide)⟩

theorem minLen1_eq_nil_iff (path : List PathPart) (s msg : String) :
    minLen1 path s msg = [] ↔ s ≠ "" := by
  unfold minLen1
  split <;> simp_all

theorem statusCheck_eq_nil_iff (path : List PathPart) (s : String) :
    statusCheck path s = [] ↔ (s = "Active" ∨ s = "Inactive") := by
  unfold statusCheck
  split <;> simp_all

theorem customFieldsErrorsFrom_eq_nil_iff (base : List PathPart) (i : Nat)
    (cfs : List CustomField) :
    customFieldsErrorsFrom base i cfs = [] ↔
      ∀ cf ∈ cfs, cf.label ≠ "" ∧ cf.value ≠ "" := by
  induction cfs generalizing i with
  | nil => simp [customFieldsErrorsFrom]
  | cons cf rest ih =>
    simp only [customFieldsErrorsFrom, List.append_eq_nil,
      minLen1_eq_nil_iff, ih, List.mem_cons, and_assoc]
    constructor
    · rintro ⟨h1, h2, h3⟩ x (rfl | hx)
      · exact ⟨h1, h2⟩
      · exact h3 x hx
    · intro h
      exact ⟨(h cf (Or.inl rfl)).1, (h cf (Or.inl rfl)).2,
        fun x hx => h x (Or.inr hx)⟩

theorem customFieldsErrors_eq_nil_iff (base : List PathPart)
    (o : Option (List CustomField)) :
    customFieldsErrors base o = [] ↔
      ∀ cf ∈ o.getD [], cf.label ≠ "" ∧ cf.value ≠ "" := by
  cases o with
  | none => simp [customFieldsErrors]
  | some cfs => simpa [customFieldsErrors] using
      customFieldsErrorsFrom_eq_nil_iff base 0 cfs

/-- C7: for each record kind, validation succeeds iff every kind-required
string field is non-empty, the status (when the kind has one) is `Active`
or `Inactive`, and every custom-field pair present has a non-empty label
and value (an absent or empty sequence being valid); when validation
fails, no store call (create or update) occurs. -/
theorem C7_validation_gate :
    (∀ v : PasswordFormValues,
      (validatePassword v = [] ↔
        v.appName ≠ "" ∧ v.username ≠ "" ∧ v.password ≠ "" ∧
        (v.status = "Active" ∨ v.status = "Inactive") ∧
        ∀ cf ∈ v.customFields.getD [], cf.label ≠ "" ∧ cf.value ≠ "") ∧
      (validatePassword v ≠ [] → submitPassword v = none)) ∧
    (∀ v : ApiKeyFormValues,
      (validateApiKey v = [] ↔
        v.modelName ≠ "" ∧ v.apiKey ≠ "" ∧
        (v.status = "Active" ∨ v.status = "Inactive") ∧
        ∀ cf ∈ v.customFields.getD [], cf.label ≠ "" ∧ cf.value ≠ "") ∧
      (validateApiKey v ≠ [] → submitApiKey v = none)) ∧
    (∀ v : NoteFormValues,
      (validateNote v = [] ↔
        v.title ≠ "" ∧ v.content ≠ "" ∧
        ∀ cf ∈ v.customFields.getD [], cf.label ≠ "" ∧ cf.value ≠ "") ∧
      (validateNote v ≠ [] → submitNote v = none)) := by
  refine ⟨fun v => ⟨?_, fun hne => ?_⟩, fun v => ⟨?_, fun hne => ?_⟩,
    fun v => ⟨?_, fun hne => ?_⟩⟩
  · simp only [validatePassword, List.append_eq_nil, minLen1_eq_nil_iff,
      statusCheck_eq_nil_iff, customFieldsErrors_eq_nil_iff, and_assoc]
  · simp [submitPassword, hne]
  · simp only [validateApiKey, List.append_eq_nil, minLen1_eq_nil_iff,
      statusCheck_eq_nil_iff, customFieldsErrors_eq_nil_iff, and_assoc]
  · simp [submitApiKey, hne]
  · simp only [validateNote, List.append_eq_nil, minLen1_eq_nil_iff,
      customFieldsErrors_eq_nil_iff, and_assoc]
  · simp [submitNote, hne]

theorem C7_validation_gate_witness :
    validatePassword invalidPasswordForm ≠ [] ∧
    submitPassword invalidPasswordForm = none ∧
    validateApiKey validApiKeyForm = [] :=
  ⟨by decide,
   (C7_validation_gate.1 invalidPasswordForm).2 (by decide),
   (C7_validation_gate.2.1 validApiKeyForm).1.mpr (by decide)⟩

/-- One store interaction either installs the payload of its successful
`list` call or leaves the displayed list unchanged (raising the error
toast exactly when no successful `list` happened). -/
theorem storeStep_eq (st : List Password) (e : StoreEvent) :
    storeStep st e = ((fetchPayload e).getD st, (fetchPayload e).isNone) := by
  cases e with
  | fetch r => cases r <;> rfl
  | save r after => cases r <;> cases after <;> rfl
  | del r after => cases r <;> cases after <;> rfl

theorem getLast?_getD_cons {α : Type} (a : α) (xs : List α) (d : α) :
    ((a :: xs).getLast?).getD d = (xs.getLast?).getD a := by
  cases xs with
  | nil => rfl
  | cons b bs =>
    rw [List.getLast?_cons_cons]
    obtain ⟨x, hx⟩ := Option.isSome_iff_exists.mp (List.getLast?_isSome.mpr
      (List.cons_ne_nil b bs))
    rw [hx]
    rfl

/-- C8: when a store operation (list, create, update, delete) fails, the
displayed list is unchanged and the failure is surfaced only as an error
toast; consequently, along any trace of store interactions the displayed
list always equals the payload of the last successful `list` call (or the
initial list when none succeeded yet). -/
theorem C8_store_failure_preserves_list :
    (∀ st : List Password,
      storeStep st (.fetch (.error ())) = (st, true) ∧
      (∀ after, storeStep st (.save (.error ()) after) = (st, true)) ∧
      (∀ after, storeStep st (.del (.error ()) after) = (st, true))) ∧
    (∀ (st : List Password) (evs : List StoreEvent),
      runStore st evs = lastFetched st evs) := by
  constructor
  · exact fun st => ⟨rfl, fun after => rfl, fun after => rfl⟩
  · intro st evs
    induction evs generalizing st with
    | nil => rfl
    | cons e es ih =>
      show runStore (storeStep st e).1 es = lastFetched st (e :: es)
      rw [ih, storeStep_eq]
      cases h : fetchPayload e with
      | none => simp [lastFetched, List.filterMap_cons, h]
      | some l =>
        simp only [lastFetched, List.filterMap_cons, h, Option.getD_some]
        exact (getLast?_getD_cons l _ st).symm

theorem getCount_bump (m : List (String × Nat)) (u t : String) :
    getCount (bump m u) t = getCount m t + (if u = t then 1 else 0) := by
  induction m with
  | nil =>
    by_cases h : u = t <;> simp [bump, getCount, h]
  | cons kv rest ih =>
    obtain ⟨k, v⟩ := kv
    simp only [bump]
    by_cases h1 : k = u
    · rw [if_pos h1]
      simp only [getCount]
      by_cases h2 : k = t
      · rw [if_pos h2, if_pos h2, if_pos (h1.symm.trans h2)]
      · rw [if_neg h2, if_neg h2, if_neg fun h => h2 (h1.trans h)]
        omega
    · rw [if_neg h1]
      simp only [getCount]
      by_cases h2 : k = t
      · rw [if_pos h2, if_pos h2,
          if_neg fun h => h1 (h2.trans h.symm)]
        omega
      · rw [if_neg h2, if_neg h2, ih]

theorem getCount_foldl_bump (stream : List String) (t : String) :
    ∀ m : List (String × Nat),
      getCount (stream.foldl bump m) t = getCount m t + stream.count t := by
  induction stream with
  | nil => intro m; simp
  | cons a rest ih =>
    intro m
    simp only [List.foldl_cons, List.count_cons, ih (bump m a), getCount_bump,
      beq_iff_eq]
    by_cases h : a = t <;> simp [h] <;> omega

theorem getCount_freqEntries (stream : List String) (t : String) :
    getCount (freqEntries stream) t = stream.count t := by
  simpa [getCount] using getCount_foldl_bump stream t []

theorem bump_map_fst_mem (m : List (String × Nat)) (u : String)
    (h : u ∈ m.map Prod.fst) :
    (bump m u).map Prod.fst = m.map Prod.fst := by
  induction m with
  | nil => simp at h
  | cons kv rest ih =>
    obtain ⟨k, v⟩ := kv
    simp only [bump]
    by_cases h1 : k = u
    · rw [if_pos h1]
      simp
    · rw [if_neg h1]
      simp only [List.map_cons, List.cons.injEq, true_and]
      refine ih ?_
      simp only [List.map_cons, List.mem_cons] at h
      rcases h with h | h
      · exact absurd h.symm h1
      · exact h

theorem bump_map_fst_not_mem (m : List (String × Nat)) (u : String)
    (h : u ∉ m.map Prod.fst) :
    (bump m u).map Prod.fst = m.map Prod.fst ++ [u] := by
  induction m with
  | nil => simp [bump]
  | cons kv rest ih =>
    obtain ⟨k, v⟩ := kv
    simp only [List.map_cons, List.mem_cons, not_or] at h
    have hne : ¬ k = u := fun h1 => h.1 h1.symm
    simp only [bump, if_neg hne, List.map_cons,
      List.cons_append, List.cons.injEq, true_and]
    exact ih h.2

theorem getCount_of_mem_nodup (m : List (String × Nat))
    (hn : (m.map Prod.fst).Nodup) {t : String} {c : Nat} (h : (t, c) ∈ m) :
    getCount m t = c := by
  induction m with
  | nil => simp at h
  | cons kv rest ih =>
    obtain ⟨k, v⟩ := kv
    simp only [List.map_cons, List.nodup_cons] at hn
    rcases List.mem_cons.mp h with h | h
    · injection h with h1 h2
      subst h1
      subst h2
      simp [getCount]
    · have hkt : k ≠ t := by
        intro hk
        exact hn.1 (by simpa [← hk] using List.mem_map_of_mem Prod.fst h)
      simp only [getCount, if_neg hkt]
      exact ih hn.2 h

theorem indexOf_append_of_mem {l₁ l₂ : List String} {x : String}
    (h : x ∈ l₁) : (l₁ ++ l₂).indexOf x = l₁.indexOf x := by
  induction l₁ with
  | nil => simp at h
  | cons a as ih =>
    by_cases ha : a = x
    · subst ha; simp [List.indexOf_cons_self]
    · rw [List.cons_append, List.indexOf_cons_ne _ ha,
        List.indexOf_cons_ne _ ha,
        ih (List.mem_cons.mp h |>.resolve_left fun hx => ha hx.symm)]

theorem indexOf_append_cons_self {l₁ l₂ : List String} {x : String}
    (h : x ∉ l₁) : (l₁ ++ x :: l₂).indexOf x = l₁.length := by
  induction l₁ with
  | nil => simp [List.indexOf_cons_self]
  | cons a as ih =>
    simp only [List.mem_cons, not_or] at h
    rw [List.cons_append, List.indexOf_cons_ne _ fun hx => h.1 hx.symm,
      ih h.2, List.length_cons]

theorem indexOf_mem_lt_length {l : List String} {x : String} (h : x ∈ l) :
    l.indexOf x < l.length := List.indexOf_lt_length.mpr h

/-- Invariant of the `forEach` frequency loop: keys of the accumulator are
exactly the already-processed occurrences, listed in first-encounter
order of the full stream. -/
theorem foldl_bump_keys (rest : List String) :
    ∀ (done : List String) (m : List (String × Nat)),
      (∀ x, x ∈ m.map Prod.fst ↔ x ∈ done) →
      List.Pairwise
        (fun a b => (done ++ rest).indexOf a < (done ++ rest).indexOf b)
        (m.map Prod.fst) →
      (∀ x, x ∈ (rest.foldl bump m).map Prod.fst ↔ x ∈ done ++ rest) ∧
      List.Pairwise
        (fun a b => (done ++ rest).indexOf a < (done ++ rest).indexOf b)
        ((rest.foldl bump m).map Prod.fst) := by
  induction rest with
  | nil =>
    intro done m hmem hpair
    constructor
    · simpa using hmem
    · simpa using hpair
  | cons t rest ih =>
    intro done m hmem hpair
    have hsplit : done ++ t :: rest = (done ++ [t]) ++ rest := by simp
    rw [List.foldl_cons, hsplit]
    by_cases ht : t ∈ m.map Prod.fst
    · have hk := bump_map_fst_mem m t ht
      refine ih (done ++ [t]) (bump m t) ?_ ?_
      · intro x
        rw [hk, hmem x, List.mem_append, List.mem_singleton]
        constructor
        · exact Or.inl
        · rintro (hx | rfl)
          · exact hx
          · exact (hmem x).mp ht
      · rw [hk]
        exact hsplit ▸ hpair
    · have hk := bump_map_fst_not_mem m t ht
      have htdone : t ∉ done := fun hd => ht ((hmem t).mpr hd)
      refine ih (done ++ [t]) (bump m t) ?_ ?_
      · intro x
        simp only [hk, List.mem_append, List.mem_singleton, hmem x]
      · rw [hk, ← hsplit]
        refine List.pairwise_append.mpr ⟨hpair, List.pairwise_singleton .., ?_⟩
        intro a ha b hb
        rw [List.mem_singleton] at hb
        rw [hb]
        have haDone : a ∈ done := (hmem a).mp ha
        calc (done ++ t :: rest).indexOf a = done.indexOf a :=
              indexOf_append_of_mem haDone
          _ < done.length := indexOf_mem_lt_length haDone
          _ = (done ++ t :: rest).indexOf t := (indexOf_append_cons_self htdone).symm

/-- The frequency map lists each occurring string exactly once, in order
of first encounter in the stream. -/
theorem freqEntries_keys (stream : List String) :
    (∀ x, x ∈ (freqEntries stream).map Prod.fst ↔ x ∈ stream) ∧
    List.Pairwise (fun a b => stream.indexOf a < stream.indexOf b)
      ((freqEntries stream).map Prod.fst) := by
  have h := foldl_bump_keys stream [] [] (by simp) (by simp)
  simpa [freqEntries] using h

/-! ### Stable-sort lemmas for the chart data -/

theorem insertLe_perm {α : Type} (le : α → α → Bool) (a : α) (l : List α) :
    (insertLe le a l).Perm (a :: l) := by
  induction l with
  | nil => exact List.Perm.refl _
  | cons b bs ih =>
    simp only [insertLe]
    by_cases h : le a b = true
    · rw [if_pos h]
    · rw [if_neg h]
      exact (ih.cons b).trans (List.Perm.swap a b bs)

theorem sortLe_perm {α : Type} (le : α → α → Bool) (l : List α) :
    (sortLe le l).Perm l := by
  induction l with
  | nil => exact List.Perm.refl _
  | cons a as ih =>
    exact (insertLe_perm le a (sortLe le as)).trans (ih.cons a)

theorem pairwise_insertLe {α : Type} (le : α → α → Bool)
    (htrans : ∀ a b c, le a b = true → le b c = true → le a c = true)
    (htotal : ∀ a b, (le a b || le b a) = true) (a : α) {l : List α}
    (h : List.Pairwise (fun x y => le x y = true) l) :
    List.Pairwise (fun x y => le x y = true) (insertLe le a l) := by
  induction l with
  | nil => exact List.pairwise_singleton ..
  | cons b bs ih =>
    simp only [insertLe]
    by_cases hab : le a b = true
    · rw [if_pos hab]
      refine List.Pairwise.cons ?_ h
      intro x hx
      rcases List.mem_cons.mp hx with rfl | hx
      · exact hab
      · exact htrans a b x hab (List.rel_of_pairwise_cons h hx)
    · rw [if_neg hab]
      have hba : le b a = true := by
        rcases Bool.or_eq_true_iff.mp (htotal a b) with h1 | h1
        · exact absurd h1 hab
        · exact h1
      refine List.Pairwise.cons ?_ (ih h.of_cons)
      intro x hx
      rcases List.mem_cons.mp ((insertLe_perm le a bs).mem_iff.mp hx)
        with rfl | hx'
      · exact hba
      · exact List.rel_of_pairwise_cons h hx'

theorem pairwise_sortLe {α : Type} (le : α → α → Bool)
    (htrans : ∀ a b c, le a b = true → le b c = true → le a c = true)
    (htotal : ∀ a b, (le a b || le b a) = true) (l : List α) :
    List.Pairwise (fun x y => le x y = true) (sortLe le l) := by
  induction l with
  | nil => exact List.Pairwise.nil
  | cons a as ih => exact pairwise_insertLe le htrans htotal a ih

theorem chartLe_trans (a b c : Nat × (String × Nat))
    (h1 : chartLe a b = true) (h2 : chartLe b c = true) :
    chartLe a c = true := by
  simp only [chartLe, decide_eq_true_eq] at h1 h2 ⊢
  omega

theorem chartLe_total (a b : Nat × (String × Nat)) :
    (chartLe a b || chartLe b a) = true := by
  simp only [chartLe, Bool.or_eq_true, decide_eq_true_eq]
  omega

theorem mem_enum_getElem {α : Type} {l : List α} {x : Nat × α}
    (h : x ∈ l.enum) : ∃ hx : x.1 < l.length, l[x.1] = x.2 := by
  obtain ⟨k, hk, hkx⟩ := List.mem_iff_getElem.mp h
  rw [List.enum_length] at hk
  rw [List.getElem_enum] at hkx
  obtain rfl := hkx
  exact ⟨hk, rfl⟩

theorem mem_enum_getElem? {α : Type} {l : List α} {x : Nat × α}
    (h : x ∈ l.enum) : l[x.1]? = some x.2 := by
  obtain ⟨hx, hget⟩ := mem_enum_getElem h
  rw [List.getElem?_eq_getElem hx, hget]

theorem pairwise_fst_lt_enum {α : Type} (l : List α) :
    List.Pairwise (fun x y : Nat × α => x.1 < y.1) l.enum := by
  rw [List.pairwise_iff_getElem]
  intro i j hi hj hij
  rw [List.getElem_enum, List.getElem_enum]
  simpa using hij

theorem enum_nodup' {α : Type} (l : List α) : l.enum.Nodup :=
  (pairwise_fst_lt_enum l).imp fun h heq => absurd (heq ▸ h) (lt_irrefl _)

/-- What the `sort`/`slice` pipeline guarantees for an entries list that is
pairwise ordered by `R` (read: `R a b` when `a` was first encountered
before `b`): the chart is the 5 highest counts, sorted by descending
count, ties resolved by `R`. -/
theorem sortSlice_spec (m : List (String × Nat))
    (R : String × Nat → String × Nat → Prop)
    (hm : List.Pairwise R m) :
    (sortSlice m).length = min 5 m.length ∧
    List.Pairwise (fun a b => b.2 < a.2 ∨ (a.2 = b.2 ∧ R a b)) (sortSlice m) ∧
    (∀ e ∈ m, e ∉ sortSlice m → ∀ o ∈ sortSlice m, e.2 ≤ o.2) := by
  have hperm : (sortLe chartLe m.enum).Perm m.enum := sortLe_perm chartLe m.enum
  have hsorted : List.Pairwise (fun x y => chartLe x y = true)
      (sortLe chartLe m.enum) :=
    pairwise_sortLe chartLe chartLe_trans chartLe_total m.enum
  have hnd : (sortLe chartLe m.enum).Nodup :=
    hperm.nodup_iff.mpr (enum_nodup' m)
  have hkey : ∀ x ∈ m.enum, ∀ y ∈ m.enum, x.1 < y.1 → R x.2 y.2 := by
    intro x hx y hy hxy
    obtain ⟨hx1, hx2⟩ := mem_enum_getElem hx
    obtain ⟨hy1, hy2⟩ := mem_enum_getElem hy
    rw [← hx2, ← hy2]
    exact List.pairwise_iff_getElem.mp hm x.1 y.1 hx1 hy1 hxy
  have hgood : List.Pairwise (fun x y : Nat × (String × Nat) =>
      y.2.2 < x.2.2 ∨ (x.2.2 = y.2.2 ∧ R x.2 y.2)) (sortLe chartLe m.enum) := by
    refine (hsorted.and hnd).imp_of_mem ?_
    intro x y hxmem hymem hxy
    obtain ⟨hle, hnexy⟩ := hxy
    rw [chartLe, decide_eq_true_eq] at hle
    rcases hle with hlt | ⟨heq, hidx⟩
    · exact Or.inl hlt
    · have hxm : x ∈ m.enum := hperm.mem_iff.mp hxmem
      have hym : y ∈ m.enum := hperm.mem_iff.mp hymem
      have hij : x.1 < y.1 := by
        rcases Nat.lt_or_ge x.1 y.1 with hlt1 | hge
        · exact hlt1
        · exfalso
          have h1 : x.1 = y.1 := Nat.le_antisymm hidx hge
          have e1 := mem_enum_getElem? hxm
          have e2 := mem_enum_getElem? hym
          rw [h1] at e1
          exact hnexy (Prod.ext h1 (Option.some.inj (e1.symm.trans e2)))
      exact Or.inr ⟨heq, hkey x hxm y hym hij⟩
  refine ⟨?_, ?_, ?_⟩
  · simp only [sortSlice, List.length_take, List.length_map,
      hperm.length_eq, List.enum_length]
  · have hpw : List.Pairwise
        (fun a b : String × Nat => b.2 < a.2 ∨ (a.2 = b.2 ∧ R a b))
        ((sortLe chartLe m.enum).map Prod.snd) :=
      List.pairwise_map.mpr hgood
    exact List.Pairwise.sublist (List.take_sublist _ _) hpw
  · intro e he hnotin o ho
    obtain ⟨i, hi, hie⟩ := List.mem_iff_getElem.mp he
    have hienum : (i, e) ∈ m.enum := by
      have hi' : i < m.enum.length := by rw [List.enum_length]; exact hi
      have : m.enum[i] = (i, e) := by rw [List.getElem_enum, hie]
      exact this ▸ List.getElem_mem hi'
    have hsmem : (i, e) ∈ sortLe chartLe m.enum := hperm.mem_iff.mpr hienum
    rcases List.mem_append.mp
        ((List.take_append_drop 5 (sortLe chartLe m.enum)).symm ▸ hsmem)
      with htake | hdrop
    · exact absurd (by
        simp only [sortSlice, ← List.map_take]
        exact List.mem_map_of_mem Prod.snd htake) hnotin
    · simp only [sortSlice, ← List.map_take, List.mem_map] at ho
      obtain ⟨y, hy, hyo⟩ := ho
      have hq := (List.pairwise_append.mp
        ((List.take_append_drop 5 (sortLe chartLe m.enum)).symm ▸ hgood)).2.2
        y hy (i, e) hdrop
      rcases hq with hlt | ⟨heq, _⟩
      · exact le_of_lt (hyo ▸ hlt)
      · exact le_of_eq (hyo ▸ heq).symm

/-! ### Canonical numeric property keys and the `Object.entries` order -/

theorem digit_toNat_bounds {c : Char} (h : c.isDigit = true) :
    48 ≤ c.toNat ∧ c.toNat ≤ 57 := by
  simp [Char.isDigit] at h
  exact h

theorem digitVal_lt_ten {c : Char} (h : c.isDigit = true) : digitVal c < 10 := by
  have := digit_toNat_bounds h
  unfold digitVal
  omega

theorem digitVal_inj {c d : Char} (hc : c.isDigit = true)
    (hd : d.isDigit = true) (h : digitVal c = digitVal d) : c = d := by
  have h1 := digit_toNat_bounds hc
  have h2 := digit_toNat_bounds hd
  have h3 : c.toNat = d.toNat := by unfold digitVal at h; omega
  rw [← Char.ofNat_toNat c, h3, Char.ofNat_toNat]

theorem digitVal_ne_zero {c : Char} (hc : c.isDigit = true) (h : c ≠ '0') :
    digitVal c ≠ 0 := by
  have h1 := digit_toNat_bounds hc
  intro h0
  apply h
  have h2 : c.toNat = 48 := by unfold digitVal at h0; omega
  rw [← Char.ofNat_toNat c, h2]

theorem foldl_digits_eq (cs : List Char) (acc : Nat) :
    cs.foldl (fun n c => n * 10 + digitVal c) acc =
      acc * 10 ^ cs.length + Nat.ofDigits 10 (cs.reverse.map digitVal) := by
  induction cs generalizing acc with
  | nil => simp [Nat.ofDigits_nil]
  | cons c cs ih =>
    rw [List.foldl_cons, ih, List.reverse_cons, List.map_append]
    rw [Nat.ofDigits_append]
    simp only [List.map_cons, List.map_nil, Nat.ofDigits_singleton,
      List.length_map, List.length_reverse, List.length_cons, pow_succ]
    ring

theorem strToNat_eq_ofDigits (s : String) :
    strToNat s = Nat.ofDigits 10 (s.data.reverse.map digitVal) := by
  have := foldl_digits_eq s.data 0
  simpa [strToNat] using this

theorem arrayIndex_unpack {s : String} (hs : isArrayIndex s = true)
    (hne : s ≠ "0") :
    s.data ≠ [] ∧ (∀ c ∈ s.data, c.isDigit = true) ∧
      s.data.head? ≠ some '0' := by
  unfold isArrayIndex at hs
  rw [Bool.or_eq_true] at hs
  rcases hs with h | h
  · exact absurd (by simpa using h) hne
  · simp only [Bool.and_eq_true, Bool.not_eq_true', List.isEmpty_eq_false,
      List.all_eq_true, beq_eq_false_iff_ne] at h
    exact ⟨h.1.1.1, h.1.1.2, h.1.2⟩

/-- Over a canonical numeric key other than `"0"`, decimal digits of the
value recover the key's characters. -/
theorem arrayIndex_digits {s : String} (hs : isArrayIndex s = true)
    (hne : s ≠ "0") :
    Nat.digits 10 (strToNat s) = s.data.reverse.map digitVal := by
  obtain ⟨hd, hdig, hhead⟩ := arrayIndex_unpack hs hne
  rw [strToNat_eq_ofDigits]
  refine Nat.digits_ofDigits 10 (by norm_num) _ ?_ ?_
  · intro l hl
    simp only [List.mem_map, List.mem_reverse] at hl
    obtain ⟨c, hc, rfl⟩ := hl
    exact digitVal_lt_ten (hdig c hc)
  · intro hne3
    obtain ⟨c0, cs0, hdata⟩ := List.exists_cons_of_ne_nil hd
    have hL : (s.data.reverse.map digitVal).getLast? = some (digitVal c0) := by
      rw [List.getLast?_map, List.getLast?_reverse, hdata]
      rfl
    rw [List.getLast?_eq_getLast _ hne3] at hL
    rw [Option.some.inj hL]
    refine digitVal_ne_zero (hdig c0 (hdata ▸ List.mem_cons_self c0 cs0)) ?_
    intro h0
    exact hhead (by rw [hdata, h0]; rfl)

theorem map_digitVal_inj {l1 l2 : List Char}
    (h1 : ∀ c ∈ l1, c.isDigit = true) (h2 : ∀ c ∈ l2, c.isDigit = true)
    (h : l1.map digitVal = l2.map digitVal) : l1 = l2 := by
  induction l1 generalizing l2 with
  | nil => cases l2 with
    | nil => rfl
    | cons d ds => simp at h
  | cons c cs ih =>
    cases l2 with
    | nil => simp at h
    | cons d ds =>
      simp only [List.map_cons, List.cons.injEq] at h
      have hc := digitVal_inj (h1 c (List.mem_cons_self c cs))
        (h2 d (List.mem_cons_self d ds)) h.1
      rw [hc]
      congr 1
      exact ih (fun x hx => h1 x (List.mem_cons_of_mem c hx))
        (fun x hx => h2 x (List.mem_cons_of_mem d hx)) h.2

/-- Distinct canonical numeric keys denote distinct numbers. -/
theorem arrayIndex_inj {a b : String} (ha : isArrayIndex a = true)
    (hb : isArrayIndex b = true) (h : strToNat a = strToNat b) : a = b := by
  by_cases h0a : a = "0"
  · by_cases h0b : b = "0"
    · rw [h0a, h0b]
    · exfalso
      have hdb := arrayIndex_digits hb h0b
      have h00 : strToNat "0" = 0 := by decide
      rw [← h, h0a, h00, Nat.digits_zero] at hdb
      have hlen := congrArg List.length hdb
      simp only [List.length_nil, List.length_map, List.length_reverse] at hlen
      exact (arrayIndex_unpack hb h0b).1 (List.length_eq_zero.mp hlen.symm)
  · by_cases h0b : b = "0"
    · exfalso
      have hda := arrayIndex_digits ha h0a
      have h00 : strToNat "0" = 0 := by decide
      rw [h, h0b, h00, Nat.digits_zero] at hda
      have hlen := congrArg List.length hda
      simp only [List.length_nil, List.length_map, List.length_reverse] at hlen
      exact (arrayIndex_unpack ha h0a).1 (List.length_eq_zero.mp hlen.symm)
    · have hda := arrayIndex_digits ha h0a
      have hdb := arrayIndex_digits hb h0b
      rw [h] at hda
      have hmap : a.data.reverse.map digitVal = b.data.reverse.map digitVal :=
        hda.symm.trans hdb
      have hdiga := (arrayIndex_unpack ha h0a).2.1
      have hdigb := (arrayIndex_unpack hb h0b).2.1
      have hrev : a.data.reverse = b.data.reverse :=
        map_digitVal_inj (fun c hc => hdiga c (List.mem_reverse.mp hc))
          (fun c hc => hdigb c (List.mem_reverse.mp hc)) hmap
      have hdata : a.data = b.data := List.reverse_inj.mp hrev
      cases a
      cases b
      exact congrArg String.mk hdata

theorem jsObjectEntries_perm (m : List (String × Nat)) :
    (jsObjectEntries m).Perm m := by
  unfold jsObjectEntries
  exact ((sortLe_perm _ _).append (List.Perm.refl _)).trans
    (List.filter_append_perm _ m)

theorem freqEntries_pairwise_indexOf (stream : List String) :
    List.Pairwise
      (fun a b : String × Nat => stream.indexOf a.1 < stream.indexOf b.1)
      (freqEntries stream) :=
  (@List.pairwise_map (String × Nat) String Prod.fst
    (fun a b => stream.indexOf a < stream.indexOf b)
    (freqEntries stream)).mp (freqEntries_keys stream).2

/-- The `Object.entries` enumeration of the frequency object is pairwise
ordered by `EnumBefore`: array-index keys ascending first, then the other
keys in first-encounter order. -/
theorem pairwise_jsObjectEntries (stream : List String) :
    List.Pairwise (fun a b => EnumBefore stream a.1 b.1)
      (jsObjectEntries (freqEntries stream)) := by
  have hm := freqEntries_pairwise_indexOf stream
  have hnodupfst : ((freqEntries stream).map Prod.fst).Nodup :=
    (freqEntries_keys stream).2.imp fun h heq => absurd (heq ▸ h) (lt_irrefl _)
  have hmem1 : ∀ x ∈ sortLe (fun a b => decide (strToNat a.1 ≤ strToNat b.1))
      ((freqEntries stream).filter fun kv => isArrayIndex kv.1),
      x ∈ freqEntries stream ∧ isArrayIndex x.1 = true := by
    intro x hx
    exact List.mem_filter.mp ((sortLe_perm _ _).mem_iff.mp hx)
  have hmem2 : ∀ x ∈ (freqEntries stream).filter
      (fun kv => !isArrayIndex kv.1),
      x ∈ freqEntries stream ∧ isArrayIndex x.1 = false := by
    intro x hx
    obtain ⟨hx1, hx2⟩ := List.mem_filter.mp hx
    rw [Bool.not_eq_true'] at hx2
    exact ⟨hx1, hx2⟩
  unfold jsObjectEntries
  refine List.pairwise_append.mpr ⟨?_, ?_, ?_⟩
  · have hsorted : List.Pairwise
        (fun a b : String × Nat => strToNat a.1 ≤ strToNat b.1)
        (sortLe (fun a b => decide (strToNat a.1 ≤ strToNat b.1))
          ((freqEntries stream).filter fun kv => isArrayIndex kv.1)) := by
      have := pairwise_sortLe
        (fun a b : String × Nat => decide (strToNat a.1 ≤ strToNat b.1))
        (fun a b c h1 h2 => by
          simp only [decide_eq_true_eq] at h1 h2 ⊢; omega)
        (fun a b => by
          simp only [Bool.or_eq_true, decide_eq_true_eq]; omega)
        ((freqEntries stream).filter fun kv => isArrayIndex kv.1)
      exact this.imp fun h => by simpa using h
    have hnody : ((sortLe (fun a b => decide (strToNat a.1 ≤ strToNat b.1))
        ((freqEntries stream).filter fun kv => isArrayIndex kv.1)).map
          Prod.fst).Nodup := by
      have h1 : (((freqEntries stream).filter
          fun kv => isArrayIndex kv.1).map Prod.fst).Nodup :=
        List.Nodup.sublist ((List.filter_sublist _).map Prod.fst) hnodupfst
      exact (((sortLe_perm _ _).map Prod.fst).nodup_iff).mpr h1
    have hne : List.Pairwise (fun a b : String × Nat => a.1 ≠ b.1)
        (sortLe (fun a b => decide (strToNat a.1 ≤ strToNat b.1))
          ((freqEntries stream).filter fun kv => isArrayIndex kv.1)) :=
      (@List.pairwise_map (String × Nat) String Prod.fst (fun a b => a ≠ b)
        _).mp hnody
    refine (hsorted.and hne).imp_of_mem ?_
    intro a b hamem hbmem hab
    obtain ⟨hle, hne2⟩ := hab
    have ha := (hmem1 a hamem).2
    have hb := (hmem1 b hbmem).2
    exact Or.inl ⟨ha, hb,
      lt_of_le_of_ne hle fun he => hne2 (arrayIndex_inj ha hb he)⟩
  · have h2 : List.Pairwise
        (fun a b : String × Nat => stream.indexOf a.1 < stream.indexOf b.1)
        ((freqEntries stream).filter fun kv => !isArrayIndex kv.1) :=
      List.Pairwise.sublist (List.filter_sublist _) hm
    refine h2.imp_of_mem ?_
    intro a b ham hbm hlt
    exact Or.inr (Or.inr ⟨(hmem2 a ham).2, (hmem2 b hbm).2, hlt⟩)
  · intro a ha b hb
    exact Or.inr (Or.inl ⟨(hmem1 a ha).2, (hmem2 b hb).2⟩)

/-- Specification of the frequency computation plus chart pipeline for one
occurrence stream: correct occurrence counts, and the chart sorted by
descending count with ties in `Object.entries` enumeration order. -/
theorem freq_chart_spec (stream : List String) :
    (∀ t c, (t, c) ∈ freqEntries stream → c = stream.count t) ∧
    (∀ t, t ∈ (freqEntries stream).map Prod.fst ↔ t ∈ stream) ∧
    List.Pairwise (fun a b => EnumBefore stream a.1 b.1)
      (jsObjectEntries (freqEntries stream)) ∧
    (chartTop5 (freqEntries stream)).length = min 5 (freqEntries stream).length ∧
    List.Pairwise (fun a b => b.2 < a.2 ∨
        (a.2 = b.2 ∧ EnumBefore stream a.1 b.1))
      (chartTop5 (freqEntries stream)) ∧
    (∀ e ∈ freqEntries stream, e ∉ chartTop5 (freqEntries stream) →
      ∀ o ∈ chartTop5 (freqEntries stream), e.2 ≤ o.2) := by
  have hkeys := freqEntries_keys stream
  have hnodup : ((freqEntries stream).map Prod.fst).Nodup :=
    hkeys.2.imp fun h heq => absurd (heq ▸ h) (lt_irrefl _)
  have hEnum := pairwise_jsObjectEntries stream
  obtain ⟨hlen, hpw, htop⟩ :=
    sortSlice_spec (jsObjectEntries (freqEntries stream)) _ hEnum
  have hperm := jsObjectEntries_perm (freqEntries stream)
  refine ⟨?_, hkeys.1, hEnum, ?_, hpw, ?_⟩
  · intro t c h
    rw [← getCount_freqEntries stream t, getCount_of_mem_nodup _ hnodup h]
  · have h1 : (chartTop5 (freqEntries stream)).length =
        min 5 (jsObjectEntries (freqEntries stream)).length := hlen
    rw [h1, hperm.length_eq]
  · intro e he hnot o ho
    exact htop e (hperm.mem_iff.mpr he) hnot o ho

/-- C9 (counterexample): tag names are free-form strings, and JavaScript
enumerates integer-like object keys first, in ascending numeric order,
before insertion-ordered string keys.  With one record carrying tags
`["alpha", "1"]` (each tag occurring once), the rendered tag chart is
`[("1", 1), ("alpha", 1)]` even though `"alpha"` was encountered first,
so a count tie is *not* broken by first-encounter order. -/
theorem C9_counterexample_numeric_key_order :
    tagChartData [numericTagApiKey] [] [] = [("1", 1), ("alpha", 1)] ∧
    (tagStream [numericTagApiKey] [] []).indexOf "alpha" <
      (tagStream [numericTagApiKey] [] []).indexOf "1" ∧
    ¬ List.Pairwise (fun a b => b.2 < a.2 ∨ (a.2 = b.2 ∧
          (tagStream [numericTagApiKey] [] []).indexOf a.1 <
            (tagStream [numericTagApiKey] [] []).indexOf b.1))
        (tagChartData [numericTagApiKey] [] []) := by
  have hEq : tagChartData [numericTagApiKey] [] [] = [("1", 1), ("alpha", 1)] := by
    decide
  refine ⟨hEq, by decide, fun h => ?_⟩
  rw [hEq] at h
  have := List.rel_of_pairwise_cons h (List.mem_cons_self _ _)
  revert this
  decide

/-- C9 (amended): the aggregator, computed from the three full loaded
lists and independent of any filter/pagination state, reports the top-5
tags by descending occurrence frequency across all three kinds and the
top-5 platforms by descending frequency over password records only; each
chart is a ≤5-element selection of maximal counts sorted by descending
count, with count ties broken by the JavaScript object enumeration order
of the frequency computation: integer-like (array-index) names first in
ascending numeric order, then the remaining names in the order they were
first encountered. -/
theorem C9_aggregator_top5 (ks : List ApiKey) (ps : List Password)
    (ns : List Note) :
    ((∀ t c, (t, c) ∈ allTags ks ps ns → c = (tagStream ks ps ns).count t) ∧
     (∀ t, t ∈ (allTags ks ps ns).map Prod.fst ↔ t ∈ tagStream ks ps ns) ∧
     List.Pairwise (fun a b => EnumBefore (tagStream ks ps ns) a.1 b.1)
       (jsObjectEntries (allTags ks ps ns)) ∧
     (tagChartData ks ps ns).length = min 5 (allTags ks ps ns).length ∧
     List.Pairwise (fun a b => b.2 < a.2 ∨
         (a.2 = b.2 ∧ EnumBefore (tagStream ks ps ns) a.1 b.1))
       (tagChartData ks ps ns) ∧
     (∀ e ∈ allTags ks ps ns, e ∉ tagChartData ks ps ns →
       ∀ o ∈ tagChartData ks ps ns, e.2 ≤ o.2)) ∧
    ((∀ t c, (t, c) ∈ allPlatforms ps → c = (platformStream ps).count t) ∧
     (∀ t, t ∈ (allPlatforms ps).map Prod.fst ↔ t ∈ platformStream ps) ∧
     List.Pairwise (fun a b => EnumBefore (platformStream ps) a.1 b.1)
       (jsObjectEntries (allPlatforms ps)) ∧
     (platformChartData ps).length = min 5 (allPlatforms ps).length ∧
     List.Pairwise (fun a b => b.2 < a.2 ∨
         (a.2 = b.2 ∧ EnumBefore (platformStream ps) a.1 b.1))
       (platformChartData ps) ∧
     (∀ e ∈ allPlatforms ps, e ∉ platformChartData ps →
       ∀ o ∈ platformChartData ps, e.2 ≤ o.2)) :=
  ⟨freq_chart_spec (tagStream ks ps ns), freq_chart_spec (platformStream ps)⟩

theorem C9_aggregator_top5_witness :
    (2 : Nat) = (tagStream [aggApiKey] [aggPassword] []).count "prod" ∧
    "ai" ∈ (allTags [aggApiKey] [aggPassword] []).map Prod.fst :=
  ⟨(C9_aggregator_top5 [aggApiKey] [aggPassword] []).1.1 "prod" 2 (by decide),
   ((C9_aggregator_top5 [aggApiKey] [aggPassword] []).1.2.1 "ai").mpr
     (by decide)⟩

end SecurePass
